import Mathlib

/-!
Verification of the MedNIST classification tutorial
(`src/day1/mnist_tutorial.py`) against its natural-language specification.

The script is embedded shallowly:

* machine floats become `ℚ` (the fractions `0.1` are exactly representable,
  and Python `int(...)` becomes truncation toward zero, `pyInt`);
* numpy arrays of indices become `List ℕ`; numpy image arrays become a
  `shape`/`data` pair of lists of rationals;
* the filesystem seen by `os.listdir` becomes an explicit listing value;
  a missing directory is `none` and raising becomes returning an
  `Except PyError` value;
* the training loop's checkpoint bookkeeping becomes a state machine over
  the per-epoch validation AUC values;
* numpy's seeded global generator (`set_determinism(seed=0)` calls
  `np.random.seed`) is modelled by the MT19937 generator together with the
  legacy Fisher-Yates shuffle with masked rejection sampling.
-/

/-! ## Python `int` on rationals

`int(q)` in Python truncates toward zero.  On the nonnegative values used by
the script this agrees with the floor. -/

/-- Python `int(q)`: truncation toward zero. -/
def pyInt (q : ℚ) : ℤ := if 0 ≤ q then ⌊q⌋ else -⌊-q⌋

/-! ## Split partitioner (`mnist_tutorial.py` lines 157-167)

```python
val_frac = 0.1
test_frac = 0.1
length = len(image_files_list)
indices = np.arange(length)
np.random.shuffle(indices)

test_split = int(test_frac * length)
val_split = int(val_frac * length) + test_split
test_indices = indices[:test_split]
val_indices = indices[test_split:val_split]
train_indices = indices[val_split:]
```
-/

def val_frac : ℚ := 1 / 10

def test_frac : ℚ := 1 / 10

/-- The three index lists produced by the split. -/
structure Split where
  test : List ℕ
  val : List ℕ
  train : List ℕ
deriving DecidableEq

/-- Lines 159-167, with the two fractions as parameters (`tf` is
`test_frac`, `vf` is `val_frac`) and the already-shuffled index array as
input.  Python's slice `indices[a:b]` is `(indices.take b).drop a`. -/
def splitIndicesWith (tf vf : ℚ) (indices : List ℕ) : Split :=
  let length : ℕ := indices.length
  let test_split : ℕ := (pyInt (tf * length)).toNat
  let val_split : ℕ := (pyInt (vf * length)).toNat + test_split
  { test := indices.take test_split
    val := (indices.take val_split).drop test_split
    train := indices.drop val_split }

/-- The split exactly as the script runs it, with `test_frac = val_frac = 0.1`. -/
def splitIndices (indices : List ℕ) : Split :=
  splitIndicesWith test_frac val_frac indices

/-! ## Claim C5: the 2-class / 20-images-per-class scenario

The catalog of the scenario lists the 20 class-0 files first (indices
`0..19`) and the 20 class-1 files after them (indices `20..39`). -/

/-- Class label of sample index `i` in the 2-class scenario. -/
def labelOf40 (i : ℕ) : ℕ := if i < 20 then 0 else 1

/-- How many indices of `ixs` carry label `lbl` in the 2-class scenario. -/
def countLabel40 (lbl : ℕ) (ixs : List ℕ) : ℕ :=
  (ixs.filter (fun i => labelOf40 i == lbl)).length

/-! ## Training-loop checkpoint bookkeeping (`mnist_tutorial.py` lines 255-308)

```python
best_metric = -1
best_metric_epoch = -1
...
            if result > best_metric:
                best_metric = result
                best_metric_epoch = epoch + 1
                torch.save(model.state_dict(), os.path.join(
                    root_dir, "best_metric_model.pth"))
```
With `val_interval = 1` a validation pass runs after every epoch, so the loop
reduces to a fold over the list of per-epoch validation AUC values. -/

/-- A Python exception class, as far as the claims need to tell them apart. -/
inductive PyError
  | ioError
  | indexError
deriving DecidableEq

/-- The loop state: the running best AUC, the (1-based) epoch it was reached
at, and the contents of `best_metric_model.pth` (the epoch whose parameters
the file holds, `none` while no save has happened). -/
structure TrainState where
  best_metric : ℚ
  best_metric_epoch : ℤ
  checkpoint : Option ℤ
deriving DecidableEq

def initTrainState : TrainState :=
  { best_metric := -1, best_metric_epoch := -1, checkpoint := none }

/-- One validation pass at 1-based epoch `epoch1` producing AUC `result`:
the body of `if result > best_metric`.  Returns the new state and whether
`torch.save` ran. -/
def valStep (s : TrainState) (epoch1 : ℤ) (result : ℚ) : TrainState × Bool :=
  if result > s.best_metric then
    ({ best_metric := result, best_metric_epoch := epoch1, checkpoint := some epoch1 }, true)
  else
    (s, false)

/-- Run the validation passes for the AUC list `rs`, starting at epoch `e`;
returns the final state and the per-epoch save flags. -/
def runValFrom : ℤ → TrainState → List ℚ → TrainState × List Bool
  | _, s, [] => (s, [])
  | e, s, r :: rs =>
    let step := valStep s e r
    let rest := runValFrom (e + 1) step.1 rs
    (rest.1, step.2 :: rest.2)

def finalTrainState (aucs : List ℚ) : TrainState :=
  (runValFrom 1 initTrainState aucs).1

def saveFlags (aucs : List ℚ) : List Bool :=
  (runValFrom 1 initTrainState aucs).2

/-- The loop state after each validation pass, in order. -/
def stateTraceFrom : ℤ → TrainState → List ℚ → List TrainState
  | _, _, [] => []
  | e, s, r :: rs =>
    let next := (valStep s e r).1
    next :: stateTraceFrom (e + 1) next rs

def bestEpochTrace (aucs : List ℚ) : List ℤ :=
  (stateTraceFrom 1 initTrainState aucs).map TrainState.best_metric_epoch

/-- Evaluation stage, line 348: `model.load_state_dict(torch.load(...))` of
`best_metric_model.pth`; loading fails when the file was never written. -/
def loadBestCheckpoint (s : TrainState) : Except PyError ℤ :=
  match s.checkpoint with
  | none => Except.error PyError.ioError
  | some e => Except.ok e

/-! ## Dataset catalog builder (`mnist_tutorial.py` lines 113-130)

```python
class_names = sorted(x for x in os.listdir(data_dir)
                     if os.path.isdir(os.path.join(data_dir, x)))
num_class = len(class_names)
image_files = [[os.path.join(data_dir, class_names[i], x)
                for x in os.listdir(os.path.join(data_dir, class_names[i]))]
               for i in range(num_class)]
num_each = [len(image_files[i]) for i in range(num_class)]
image_files_list = []
image_class = []
for i in range(num_class):
    image_files_list.extend(image_files[i])
    image_class.extend([i] * num_each[i])
num_total = len(image_class)
image_width, image_height = PIL.Image.open(image_files_list[0]).size
```
`os.listdir` of a missing directory raises `FileNotFoundError` (an `OSError`);
the final line indexes `image_files_list[0]` and raises `IndexError` when the
list is empty.  Opening the first file itself succeeds, since every listed
path exists by construction. -/

/-- One entry of the root directory listing: its name, whether
`os.path.isdir` holds for it, and — when it is a class directory — its own
file listing. -/
structure FSEntry where
  name : String
  isDir : Bool
  files : List String
deriving DecidableEq

/-- The parallel outputs of lines 113-129. -/
structure Catalog where
  class_names : List String
  image_files : List (List String)
  image_files_list : List String
  image_class : List ℕ
  num_total : ℕ
deriving DecidableEq

/-- Model of `os.listdir(os.path.join(data_dir, c))` for a class directory `c`. -/
def listClassDir (entries : List FSEntry) (c : String) : List String :=
  match entries.find? (fun en => en.name == c) with
  | none => []
  | some en => en.files

/-- Python's string comparison: lexicographic on code points. -/
def charListLe : List Char → List Char → Bool
  | [], _ => true
  | _ :: _, [] => false
  | a :: as, b :: bs =>
    if a.toNat < b.toNat then true
    else if b.toNat < a.toNat then false
    else charListLe as bs

/-- Comparison `a <= b` on Python strings. -/
def pyStrLeP (a b : String) : Prop := charListLe a.data b.data = true

instance pyStrLePDecidable : DecidableRel pyStrLeP := fun a b => by
  unfold pyStrLeP
  infer_instance

/-- Model of `sorted(x for x in os.listdir(data_dir) if os.path.isdir(...))`; Python's
`sorted` orders strings lexicographically by code point (`pyStrLeP`). -/
def catalogClassNames (entries : List FSEntry) : List String :=
  List.insertionSort pyStrLeP ((entries.filter (fun en => en.isDir)).map (fun en => en.name))

/-- The per-class lists of joined file paths (`image_files`). -/
def catalogImageFiles (entries : List FSEntry) (dirName : String) : List (List String) :=
  (catalogClassNames entries).map (fun c =>
    (listClassDir entries c).map (fun x => dirName ++ "/" ++ c ++ "/" ++ x))

/-- The list `image_class`: for each class index `i` (starting at `n`), `num_each[i]`
copies of `i`, concatenated in order. -/
def labelsFrom (n : ℕ) (L : List (List String)) : List ℕ :=
  (L.enumFrom n).flatMap (fun q => List.replicate q.2.length q.1)

/-- Lines 113-130 as one fallible function of the root-directory listing
(`none` models a missing `data_dir`). -/
def buildCatalog (data_dir : Option (List FSEntry)) (dirName : String) :
    Except PyError Catalog :=
  match data_dir with
  | none => Except.error PyError.ioError
  | some entries =>
    let image_files := catalogImageFiles entries dirName
    if image_files.flatten = [] then
      Except.error PyError.indexError
    else
      Except.ok
        { class_names := catalogClassNames entries
          image_files := image_files
          image_files_list := image_files.flatten
          image_class := labelsFrom 0 image_files
          num_total := (labelsFrom 0 image_files).length }

/-! ## Augmentation pipeline, deterministic prefix (`mnist_tutorial.py` lines 196-197)

```python
val_transforms = Compose(
    [LoadImage(image_only=True), AddChannel(), ScaleIntensity(), EnsureType()])
```
`ScaleIntensity()` calls MONAI's `rescale_array(arr, minv=0.0, maxv=1.0)`:
```python
mina = arr.min(); maxa = arr.max()
if mina == maxa: return arr * minv
norm = (arr - mina) / (maxa - mina)
return (norm * (maxv - minv)) + minv
```
-/

/-- A numeric tensor: its shape and its flat value sequence. -/
structure NTensor where
  shape : List ℕ
  data : List ℚ
deriving DecidableEq

/-- Transform `AddChannel()`: prepend a length-1 leading dimension; values unchanged. -/
def addChannel (t : NTensor) : NTensor := { shape := 1 :: t.shape, data := t.data }

/-- MONAI `rescale_array` with the `ScaleIntensity` defaults `minv = 0, maxv = 1`
on the flat value sequence.  Every call the script makes passes a nonempty
array (numpy's `min` raises on an empty one), so the `[]` clause is never
reached. -/
def rescaleArray (xs : List ℚ) : List ℚ :=
  match xs with
  | [] => []
  | x :: rest =>
    let mina := rest.foldl min x
    let maxa := rest.foldl max x
    if mina = maxa then xs.map (fun v => v * 0)
    else xs.map (fun v => (v - mina) / (maxa - mina) * (1 - 0) + 0)

/-- Transform `ScaleIntensity()`: rescale the values, keep the shape. -/
def scaleIntensity (t : NTensor) : NTensor :=
  { shape := t.shape, data := rescaleArray t.data }

/-- Transform `EnsureType()`: converts the container type; values and shape unchanged. -/
def ensureType (t : NTensor) : NTensor := t

/-- Transform `LoadImage(image_only=True)`: read the image stored at `path`; the image
store is modelled as a partial map from paths to tensors. -/
def loadImage (store : String → Option NTensor) (path : String) : Option NTensor :=
  store path

/-- The deterministic tensor-level stage of `val_transforms`:
`AddChannel` then `ScaleIntensity` (with `EnsureType` the identity). -/
def detStage (t : NTensor) : NTensor := ensureType (scaleIntensity (addChannel t))

/-- The whole deterministic prefix from a path. -/
def valDetPipeline (store : String → Option NTensor) (path : String) : Option NTensor :=
  (loadImage store path).map detStage

/-! ## Data directory and cleanup (`mnist_tutorial.py` lines 74-75, 374-375)

```python
directory = os.environ.get("MONAI_DATA_DIRECTORY")
root_dir = tempfile.mkdtemp() if directory is None else directory
...
if directory is None:
    shutil.rmtree(root_dir)
```
-/

/-- The `root_dir` value: the configured directory, or the fresh temporary one. -/
def rootDirOf (directory : Option String) (tmpdir : String) : String :=
  match directory with
  | none => tmpdir
  | some d => d

/-- The cleanup step at the end of the run.  The filesystem is modelled as an
association list from directory names to a fingerprint of their contents;
`shutil.rmtree(root_dir)` removes that directory with everything in it, and
runs only when the environment variable was not set. -/
def cleanupRun (directory : Option String) (tmpdir : String)
    (fs : List (String × ℕ)) : List (String × ℕ) :=
  match directory with
  | none => fs.filter (fun e => !(e.1 == rootDirOf none tmpdir))
  | some _ => fs

/-! ## Determinism of the seeded split (`mnist_tutorial.py` lines 103, 157-167)

`set_determinism(seed=0)` seeds numpy's global generator
(`np.random.seed(seed)`), and `np.random.shuffle` permutes the index array
with a Fisher-Yates pass driven by that generator.  The generator is MT19937;
each bounded draw `j ∈ [0, i]` uses masked rejection sampling.  The model
below reproduces that structure (the rejection loop carries fuel: each
attempt accepts with probability above one half, so realistic fuel never runs
out; on exhaustion it falls back to a masked value so the function stays
total — determinism is unaffected either way). -/

def U32 : ℕ := 4294967296

/-- One step of MT19937 state initialisation from the previous word. -/
def mtInitWord (prev i : ℕ) : ℕ := (1812433253 * (prev ^^^ (prev >>> 30)) + i) % U32

def mtInitFrom : ℕ → ℕ → ℕ → List ℕ
  | _, _, 0 => []
  | prev, i, n + 1 =>
    let w := mtInitWord prev i
    w :: mtInitFrom w (i + 1) n

/-- MT19937 `init_genrand(seed)`: the 624-word initial key. -/
def mtInit (seed : ℕ) : List ℕ := (seed % U32) :: mtInitFrom (seed % U32) 1 623

def mtTwistStep (key : List ℕ) (i : ℕ) : List ℕ :=
  let y := ((key.getD i 0) &&& 2147483648) ||| ((key.getD ((i + 1) % 624) 0) &&& 2147483647)
  let v := (key.getD ((i + 397) % 624) 0) ^^^ (y >>> 1)
      ^^^ (if y &&& 1 = 1 then 2567483615 else 0)
  key.set i v

/-- The in-place MT19937 twist over all 624 positions. -/
def mtTwist (key : List ℕ) : List ℕ := (List.range 624).foldl mtTwistStep key

def mtTemper (y0 : ℕ) : ℕ :=
  let y1 := y0 ^^^ (y0 >>> 11)
  let y2 := y1 ^^^ ((y1 <<< 7) &&& 2636928640)
  let y3 := y2 ^^^ ((y2 <<< 15) &&& 4022730752)
  y3 ^^^ (y3 >>> 18)

structure MTState where
  key : List ℕ
  pos : ℕ
deriving DecidableEq

/-- Model of `np.random.seed(seed)`. -/
def mtSeed (seed : ℕ) : MTState := { key := mtInit seed, pos := 624 }

/-- Draw one tempered 32-bit word. -/
def mtNext (s : MTState) : ℕ × MTState :=
  if s.pos ≥ 624 then
    let k := mtTwist s.key
    (mtTemper (k.getD 0 0), { key := k, pos := 1 })
  else
    (mtTemper (s.key.getD s.pos 0), { key := s.key, pos := s.pos + 1 })

/-- Smallest all-ones bit mask covering `m` (the smearing in
`random_interval`). -/
def maskFor (m : ℕ) : ℕ :=
  let m1 := m ||| (m >>> 1)
  let m2 := m1 ||| (m1 >>> 2)
  let m3 := m2 ||| (m2 >>> 4)
  let m4 := m3 ||| (m3 >>> 8)
  m4 ||| (m4 >>> 16)

/-- Bounded draw in `[0, maxv]` by masked rejection sampling, with fuel. -/
def randomInterval : ℕ → MTState → ℕ → ℕ × MTState
  | 0, s, maxv =>
    let d := mtNext s
    (d.1 % (maxv + 1), d.2)
  | fuel + 1, s, maxv =>
    let d := mtNext s
    let v := d.1 &&& maskFor maxv
    if v ≤ maxv then (v, d.2) else randomInterval fuel d.2 maxv

def listSwap (xs : List ℕ) (a b : ℕ) : List ℕ :=
  match xs[a]?, xs[b]? with
  | some x, some y => (xs.set a y).set b x
  | _, _ => xs

/-- The `np.random.shuffle` Fisher-Yates loop:
`for i in reversed(range(1, n)): j = interval(i); swap x[i], x[j]`.
The first argument is the Python loop index `i`. -/
def shuffleFrom : ℕ → List ℕ → MTState → List ℕ × MTState
  | 0, xs, s => (xs, s)
  | i + 1, xs, s =>
    let d := randomInterval 1000000 s (i + 1)
    shuffleFrom i (listSwap xs (i + 1) d.1) d.2

def npShuffle (xs : List ℕ) (s : MTState) : List ℕ × MTState :=
  shuffleFrom (xs.length - 1) xs s

/-- Lines 103 and 160-167 as one function of the total count and the seed:
seed the generator, shuffle `np.arange(N)`, slice. -/
def partitionPipeline (N seed : ℕ) : Split :=
  splitIndices (npShuffle (List.range N) (mtSeed seed)).1

theorem pyInt_of_nonneg {q : ℚ} (h : 0 ≤ q) : pyInt q = ⌊q⌋ := by
  simp [pyInt, h]

theorem take_drop_take_concat (l : List ℕ) (a b : ℕ) (h : a ≤ b) :
    l.take a ++ ((l.take b).drop a ++ l.drop b) = l := by
  have h1 : l.take a = (l.take b).take a := by
    rw [List.take_take, min_eq_left h]
  rw [h1, ← List.append_assoc, List.take_append_drop, List.take_append_drop]

/-- The three slices concatenate back to the input array. -/
theorem splitIndicesWith_concat (tf vf : ℚ) (l : List ℕ) :
    (splitIndicesWith tf vf l).test ++
      ((splitIndicesWith tf vf l).val ++ (splitIndicesWith tf vf l).train) = l := by
  exact take_drop_take_concat l _ _ (Nat.le_add_left _ _)

/-- Claim C2: for every total sample count `N` (and any shuffled index array,
i.e. any permutation of `[0, N)`), the split produces three index lists that
are pairwise disjoint and whose union is exactly `[0, N)`: every sample index
belongs to exactly one subset. -/
theorem split_partition_exact (N : ℕ) (p : List ℕ) (hp : p.Perm (List.range N)) :
    (∀ i : ℕ, i < N ↔
      (i ∈ (splitIndices p).test ∨ i ∈ (splitIndices p).val ∨ i ∈ (splitIndices p).train)) ∧
    (splitIndices p).test.Disjoint (splitIndices p).val ∧
    (splitIndices p).test.Disjoint (splitIndices p).train ∧
    (splitIndices p).val.Disjoint (splitIndices p).train := by
  have hcat := splitIndicesWith_concat test_frac val_frac p
  have hnd : p.Nodup := (hp.nodup_iff).mpr (List.nodup_range N)
  have hnd' : ((splitIndices p).test ++
      ((splitIndices p).val ++ (splitIndices p).train)).Nodup := by
    rw [splitIndices]; rw [hcat]; exact hnd
  rw [List.nodup_append] at hnd'
  obtain ⟨-, hnd2, hdisj⟩ := hnd'
  rw [List.nodup_append] at hnd2
  obtain ⟨-, -, hdisj23⟩ := hnd2
  refine ⟨?_, ?_, ?_, hdisj23⟩
  · intro i
    rw [← List.mem_range (n := N), ← hp.mem_iff]
    conv_lhs => rw [← hcat]
    rw [splitIndices]
    simp [List.mem_append, or_assoc]
  · intro a ha hb
    exact hdisj ha (List.mem_append_left _ hb)
  · intro a ha hb
    exact hdisj ha (List.mem_append_right _ hb)

/-- Witness for C2 at `N = 5` with the concrete permutation `[3, 0, 4, 2, 1]`,
instantiated at index `2`. -/
theorem split_partition_exact_witness :
    ([3, 0, 4, 2, 1] : List ℕ).Perm (List.range 5) ∧
    (2 < 5 ↔
      (2 ∈ (splitIndices [3, 0, 4, 2, 1]).test ∨ 2 ∈ (splitIndices [3, 0, 4, 2, 1]).val ∨
        2 ∈ (splitIndices [3, 0, 4, 2, 1]).train)) :=
  ⟨by decide, (split_partition_exact 5 [3, 0, 4, 2, 1] (by decide)).1 2⟩

/-! ## Claim C4: the split algorithm and the subset sizes -/

theorem floorSum_le (tf vf : ℚ) (N : ℕ)
    (htf : 0 ≤ tf) (hvf : 0 ≤ vf) (hsum : tf + vf ≤ 1) :
    (⌊tf * (N : ℚ)⌋).toNat + (⌊vf * (N : ℚ)⌋).toNat ≤ N := by
  have h0t : (0 : ℚ) ≤ tf * N := mul_nonneg htf (by positivity)
  have h0v : (0 : ℚ) ≤ vf * N := mul_nonneg hvf (by positivity)
  have h2 : ⌊tf * (N : ℚ)⌋ + ⌊vf * (N : ℚ)⌋ ≤ ⌊tf * (N : ℚ) + vf * (N : ℚ)⌋ := by
    apply Int.le_floor.mpr
    push_cast
    exact add_le_add (Int.floor_le _) (Int.floor_le _)
  have h3 : tf * (N : ℚ) + vf * (N : ℚ) ≤ (N : ℚ) := by
    have hN : (0 : ℚ) ≤ (N : ℚ) := by positivity
    calc tf * (N : ℚ) + vf * (N : ℚ) = (tf + vf) * N := by ring
      _ ≤ 1 * N := mul_le_mul_of_nonneg_right hsum hN
      _ = N := one_mul _
  have h1 : ⌊tf * (N : ℚ)⌋ + ⌊vf * (N : ℚ)⌋ ≤ (N : ℤ) := by
    calc ⌊tf * (N : ℚ)⌋ + ⌊vf * (N : ℚ)⌋ ≤ ⌊tf * (N : ℚ) + vf * (N : ℚ)⌋ := h2
      _ ≤ ⌊(N : ℚ)⌋ := Int.floor_le_floor h3
      _ = N := Int.floor_natCast N
  have h4 : 0 ≤ ⌊tf * (N : ℚ)⌋ := Int.floor_nonneg.mpr h0t
  have h5 : 0 ≤ ⌊vf * (N : ℚ)⌋ := Int.floor_nonneg.mpr h0v
  omega

/-- Claim C4: the split takes the first `int(test_frac*N)` entries of the
shuffled index array as the test set, the next `int(val_frac*N)` entries as
the validation set, and the rest as the training set; consequently, whenever
the fractions are nonnegative and sum to at most one, the test set has
`⌊test_frac*N⌋` elements, the validation set `⌊val_frac*N⌋` elements, and the
training set the remaining `N - (⌊test_frac*N⌋ + ⌊val_frac*N⌋)`. -/
theorem split_algorithm_exact (tf vf : ℚ) (indices : List ℕ)
    (htf : 0 ≤ tf) (hvf : 0 ≤ vf) (hsum : tf + vf ≤ 1) :
    (splitIndicesWith tf vf indices).test
        = indices.take (⌊tf * (indices.length : ℚ)⌋).toNat ∧
    (splitIndicesWith tf vf indices).val
        = (indices.take ((⌊vf * (indices.length : ℚ)⌋).toNat
            + (⌊tf * (indices.length : ℚ)⌋).toNat)).drop
            (⌊tf * (indices.length : ℚ)⌋).toNat ∧
    (splitIndicesWith tf vf indices).train
        = indices.drop ((⌊vf * (indices.length : ℚ)⌋).toNat
            + (⌊tf * (indices.length : ℚ)⌋).toNat) ∧
    (splitIndicesWith tf vf indices).test.length
        = (⌊tf * (indices.length : ℚ)⌋).toNat ∧
    (splitIndicesWith tf vf indices).val.length
        = (⌊vf * (indices.length : ℚ)⌋).toNat ∧
    (splitIndicesWith tf vf indices).train.length
        = indices.length
          - ((⌊tf * (indices.length : ℚ)⌋).toNat + (⌊vf * (indices.length : ℚ)⌋).toNat) := by
  have h0t : (0 : ℚ) ≤ tf * indices.length := mul_nonneg htf (by positivity)
  have h0v : (0 : ℚ) ≤ vf * indices.length := mul_nonneg hvf (by positivity)
  have key := floorSum_le tf vf indices.length htf hvf hsum
  refine ⟨?_, ?_, ?_, ?_, ?_, ?_⟩ <;>
    simp [splitIndicesWith, pyInt_of_nonneg h0t, pyInt_of_nonneg h0v,
      List.length_take, List.length_drop] <;>
    omega

/-- Witness for C4 at `test_frac = val_frac = 1/10` on the identity index
array of length 40: the hypotheses hold and the test set has
`⌊40/10⌋ = 4` elements. -/
theorem split_algorithm_exact_witness :
    ((0 : ℚ) ≤ 1 / 10 ∧ (0 : ℚ) ≤ 1 / 10 ∧ (1 : ℚ) / 10 + 1 / 10 ≤ 1) ∧
    (splitIndicesWith (1 / 10) (1 / 10) (List.range 40)).test.length
      = (⌊(1 / 10 : ℚ) * (((List.range 40).length : ℕ) : ℚ)⌋).toNat := by
  refine ⟨⟨by norm_num, by norm_num, by norm_num⟩, ?_⟩
  exact (split_algorithm_exact (1 / 10) (1 / 10) (List.range 40)
    (by norm_num) (by norm_num) (by norm_num)).2.2.2.1

/-- On any index array of length 40 the slice boundaries evaluate to
`int(0.1 * 40) = 4` and `int(0.1 * 40) + 4 = 8`. -/
theorem splitIndices_eval40 (p : List ℕ) (hlen : p.length = 40) :
    splitIndices p = { test := p.take 4, val := (p.take 8).drop 4, train := p.drop 8 } := by
  have e1 : (pyInt (test_frac * (p.length : ℚ))).toNat = 4 := by
    rw [hlen]; norm_num [pyInt, test_frac]; decide
  have e2 : (pyInt (val_frac * (p.length : ℚ))).toNat = 4 := by
    rw [hlen]; norm_num [pyInt, val_frac]; decide
  simp only [splitIndices, splitIndicesWith, e1, e2]

/-- Counterexample for C5: the split is not stratified, so per-class counts
`16 / 2 / 2` are not guaranteed for every permutation the seeded shuffle could
deliver.  The identity permutation of `[0, 40)` is a permutation under which
the test set holds 4 class-0 samples and no class-1 sample. -/
theorem split_per_class_not_guaranteed :
    ¬ (∀ p : List ℕ, p.Perm (List.range 40) →
        (countLabel40 0 (splitIndices p).train = 16 ∧
         countLabel40 1 (splitIndices p).train = 16 ∧
         countLabel40 0 (splitIndices p).val = 2 ∧
         countLabel40 1 (splitIndices p).val = 2 ∧
         countLabel40 0 (splitIndices p).test = 2 ∧
         countLabel40 1 (splitIndices p).test = 2)) := by
  intro h
  have hx := (h (List.range 40) (List.Perm.refl _)).2.2.2.2.1
  rw [splitIndices_eval40 (List.range 40) (List.length_range 40)] at hx
  exact absurd hx (by decide)

/-- Claim C5 as amended: with `val_frac = test_frac = 0.1` and `N = 40`
(2 classes, 20 images each), every run of the split on the seeded shuffle's
permutation yields exactly 4 test, 4 validation and 32 training samples in
total (the claimed 2+2 / 2+2 / 16+16 aggregated over the two classes), and
each class's 20 samples are distributed among the three subsets; the
per-class composition of each subset is whatever the permutation makes it. -/
theorem split_counts_40 (p : List ℕ) (hp : p.Perm (List.range 40)) :
    (splitIndices p).test.length = 4 ∧
    (splitIndices p).val.length = 4 ∧
    (splitIndices p).train.length = 32 ∧
    countLabel40 0 (splitIndices p).test + countLabel40 0 (splitIndices p).val +
      countLabel40 0 (splitIndices p).train = 20 ∧
    countLabel40 1 (splitIndices p).test + countLabel40 1 (splitIndices p).val +
      countLabel40 1 (splitIndices p).train = 20 := by
  have hlen : p.length = 40 := by rw [hp.length_eq, List.length_range]
  have hsum : ∀ l : ℕ,
      countLabel40 l (splitIndices p).test + countLabel40 l (splitIndices p).val +
        countLabel40 l (splitIndices p).train = countLabel40 l p := by
    intro l
    have hcat := splitIndicesWith_concat test_frac val_frac p
    conv_rhs => rw [← hcat]
    simp only [splitIndices, countLabel40, List.filter_append, List.length_append]
    omega
  have hperm : ∀ l : ℕ, countLabel40 l p = countLabel40 l (List.range 40) := by
    intro l
    exact (hp.filter _).length_eq
  rw [splitIndices_eval40 p hlen] at hsum ⊢
  refine ⟨?_, ?_, ?_, ?_, ?_⟩
  · simp [List.length_take, hlen]
  · simp [List.length_take, List.length_drop, hlen]
  · simp [List.length_drop, hlen]
  · rw [hsum 0, hperm 0]; decide
  · rw [hsum 1, hperm 1]; decide

/-- Witness for C5 (amended) at the concrete permutation
`[0, 1, ..., 39]` (reversed pairs): the subset sizes are 4 / 4 / 32. -/
theorem split_counts_40_witness :
    (List.range 40).reverse.Perm (List.range 40) ∧
    ((splitIndices (List.range 40).reverse).test.length = 4 ∧
     (splitIndices (List.range 40).reverse).val.length = 4 ∧
     (splitIndices (List.range 40).reverse).train.length = 32) := by
  have h := split_counts_40 (List.range 40).reverse (List.reverse_perm _)
  exact ⟨List.reverse_perm _, h.1, h.2.1, h.2.2.1⟩

/-- Claim C1: a checkpoint is saved, and best value / best epoch updated, if
and only if the epoch's validation AUC strictly exceeds the best seen so far;
a tie never saves.  On the AUC sequence `[0.5, 0.6, 0.55, 0.6, 0.7]` the file
is written exactly at observations 1, 2 and 5, and `best_metric_epoch` after
the five observations reads `[1, 2, 2, 2, 5]`. -/
theorem checkpoint_policy :
    (∀ (s : TrainState) (e : ℤ) (r : ℚ), (valStep s e r).2 = true ↔ r > s.best_metric) ∧
    (∀ (s : TrainState) (e : ℤ), (valStep s e s.best_metric).2 = false) ∧
    (∀ (s : TrainState) (e : ℤ) (r : ℚ),
      ((valStep s e r).2 = true ∧
        (valStep s e r).1 = { best_metric := r, best_metric_epoch := e, checkpoint := some e }) ∨
      ((valStep s e r).2 = false ∧ (valStep s e r).1 = s)) ∧
    saveFlags [1/2, 3/5, 11/20, 3/5, 7/10] = [true, true, false, false, true] ∧
    bestEpochTrace [1/2, 3/5, 11/20, 3/5, 7/10] = [1, 2, 2, 2, 5] := by
  refine ⟨?_, ?_, ?_, ?_, ?_⟩
  · intro s e r
    by_cases h : r > s.best_metric <;> simp [valStep, h]
  · intro s e
    simp [valStep]
  · intro s e r
    by_cases h : r > s.best_metric
    · exact Or.inl (by simp [valStep, h])
    · exact Or.inr (by simp [valStep, h])
  · norm_num [saveFlags, runValFrom, valStep, initTrainState]
  · norm_num [bestEpochTrace, stateTraceFrom, valStep, initTrainState]

theorem valStep_checkpoint_mono (s : TrainState) (e : ℤ) (r : ℚ)
    (h : s.checkpoint.isSome = true) : ((valStep s e r).1).checkpoint.isSome = true := by
  by_cases hc : r > s.best_metric <;> simp [valStep, hc, h]

theorem runValFrom_checkpoint_mono :
    ∀ (rs : List ℚ) (e : ℤ) (s : TrainState), s.checkpoint.isSome = true →
      ((runValFrom e s rs).1).checkpoint.isSome = true
  | [], _, _, h => h
  | r :: rs, e, s, h =>
    runValFrom_checkpoint_mono rs (e + 1) _ (valStep_checkpoint_mono s e r h)

/-- Claim C9: `best_metric` starts at `-1` and every validation AUC lies in
`[0, 1]`, so the first validation pass strictly improves on the initial best
and writes the checkpoint; hence after any run with at least one epoch the
evaluation stage's load of `best_metric_model.pth` succeeds. -/
theorem first_validation_always_saves (aucs : List ℚ) (hne : aucs ≠ [])
    (hrange : ∀ a ∈ aucs, 0 ≤ a ∧ a ≤ 1) :
    (saveFlags aucs).head? = some true ∧
    (finalTrainState aucs).checkpoint.isSome = true ∧
    ∃ e, loadBestCheckpoint (finalTrainState aucs) = Except.ok e := by
  match aucs, hne with
  | a :: rest, _ =>
    have ha : a > (-1 : ℚ) :=
      lt_of_lt_of_le (by norm_num) (hrange a (List.mem_cons_self a rest)).1
    have hstep : valStep initTrainState 1 a =
        ({ best_metric := a, best_metric_epoch := 1, checkpoint := some 1 }, true) := by
      have : a > initTrainState.best_metric := ha
      simp [valStep, this]
    have hflag : (saveFlags (a :: rest)).head? = some true := by
      simp [saveFlags, runValFrom, hstep]
    have hfinal : (finalTrainState (a :: rest)).checkpoint.isSome = true := by
      have : finalTrainState (a :: rest)
          = (runValFrom 2 (valStep initTrainState 1 a).1 rest).1 := by
        simp [finalTrainState, runValFrom]
      rw [this]
      apply runValFrom_checkpoint_mono
      rw [hstep]
      rfl
    obtain ⟨c, hc⟩ := Option.isSome_iff_exists.mp hfinal
    exact ⟨hflag, hfinal, ⟨c, by simp [loadBestCheckpoint, hc]⟩⟩

/-- Witness for C9 on the single-epoch AUC list `[1/2]`: the hypotheses hold
there, the first (only) pass saves, and the best checkpoint exists. -/
theorem first_validation_always_saves_witness :
    ((0 : ℚ) ≤ 1/2 ∧ (1 : ℚ)/2 ≤ 1) ∧
    (saveFlags [(1 : ℚ)/2]).head? = some true ∧
    (finalTrainState [(1 : ℚ)/2]).checkpoint.isSome = true := by
  have hr : ∀ a ∈ [(1 : ℚ)/2], 0 ≤ a ∧ a ≤ 1 := by
    intro a ha
    rw [List.mem_singleton] at ha
    subst ha
    norm_num
  have h := first_validation_always_saves [(1 : ℚ)/2] (by simp) hr
  exact ⟨by norm_num, h.1, h.2.1⟩

theorem charListLe_trans : ∀ as bs cs : List Char,
    charListLe as bs = true → charListLe bs cs = true → charListLe as cs = true
  | [], _, _, _, _ => rfl
  | _ :: _, [], _, h1, _ => by simp [charListLe] at h1
  | _ :: _, _ :: _, [], _, h2 => by simp [charListLe] at h2
  | a :: as, b :: bs, c :: cs, h1, h2 => by
    simp only [charListLe] at h1 h2 ⊢
    rcases Nat.lt_trichotomy a.toNat b.toNat with hab | hab | hab
    · rcases Nat.lt_trichotomy b.toNat c.toNat with hbc | hbc | hbc
      · simp [show a.toNat < c.toNat by omega]
      · simp [show a.toNat < c.toNat by omega]
      · simp [show ¬ b.toNat < c.toNat by omega, hbc] at h2
    · rcases Nat.lt_trichotomy b.toNat c.toNat with hbc | hbc | hbc
      · simp [show a.toNat < c.toNat by omega]
      · rw [if_neg (by omega), if_neg (by omega)] at h1
        rw [if_neg (by omega), if_neg (by omega)] at h2
        rw [if_neg (by omega), if_neg (by omega)]
        exact charListLe_trans as bs cs h1 h2
      · simp [show ¬ b.toNat < c.toNat by omega, hbc] at h2
    · simp [show ¬ a.toNat < b.toNat by omega, hab] at h1

theorem charListLe_total : ∀ as bs : List Char,
    charListLe as bs = true ∨ charListLe bs as = true
  | [], _ => Or.inl rfl
  | _ :: _, [] => Or.inr rfl
  | a :: as, b :: bs => by
    rcases Nat.lt_trichotomy a.toNat b.toNat with h | h | h
    · exact Or.inl (by simp [charListLe, h])
    · rcases charListLe_total as bs with ih | ih
      · exact Or.inl (by simp [charListLe, h, ih])
      · exact Or.inr (by simp [charListLe, h, ih])
    · exact Or.inr (by simp [charListLe, h])

instance pyStrLePTrans : IsTrans String pyStrLeP :=
  ⟨fun a b c => charListLe_trans a.data b.data c.data⟩

instance pyStrLePTotal : IsTotal String pyStrLeP :=
  ⟨fun a b => charListLe_total a.data b.data⟩

theorem labelsFrom_cons (n : ℕ) (fs : List String) (L : List (List String)) :
    labelsFrom n (fs :: L) = List.replicate fs.length n ++ labelsFrom (n + 1) L := by
  simp [labelsFrom, List.enumFrom]

theorem labelsFrom_length : ∀ (L : List (List String)) (n : ℕ),
    (labelsFrom n L).length = L.flatten.length
  | [], _ => rfl
  | fs :: L, n => by
    rw [labelsFrom_cons, List.flatten_cons, List.length_append, List.length_append,
      List.length_replicate, labelsFrom_length L (n + 1)]

theorem labelsFrom_mem : ∀ (L : List (List String)) (n l : ℕ), l ∈ labelsFrom n L →
    n ≤ l ∧ l < n + L.length
  | [], _, _, h => by simp [labelsFrom] at h
  | fs :: L, n, l, h => by
    rw [labelsFrom_cons, List.mem_append] at h
    rcases h with h | h
    · have := List.eq_of_mem_replicate h
      subst this
      simp
    · have := labelsFrom_mem L (n + 1) l h
      constructor <;> [omega; simpa [Nat.add_comm, Nat.add_left_comm] using by omega]

theorem sorted_replicate (n a : ℕ) : (List.replicate n a).Sorted (· ≤ ·) := by
  induction n with
  | zero => simp
  | succ k ih =>
    rw [List.replicate_succ, List.sorted_cons]
    exact ⟨fun b hb => le_of_eq (List.eq_of_mem_replicate hb).symm, ih⟩

theorem labelsFrom_sorted : ∀ (L : List (List String)) (n : ℕ),
    (labelsFrom n L).Sorted (· ≤ ·)
  | [], _ => by simp [labelsFrom]
  | fs :: L, n => by
    rw [labelsFrom_cons]
    rw [List.Sorted, List.pairwise_append]
    refine ⟨sorted_replicate _ _, labelsFrom_sorted L (n + 1), ?_⟩
    intro a ha b hb
    rw [List.eq_of_mem_replicate ha]
    have := (labelsFrom_mem L (n + 1) b hb).1
    omega

theorem zip_self_replicate (n : ℕ) : ∀ (fs : List String),
    fs.zip (List.replicate fs.length n) = fs.map (fun x => (x, n))
  | [] => rfl
  | x :: fs => by
    rw [List.length_cons, List.replicate_succ, List.zip_cons_cons, List.map_cons,
      zip_self_replicate n fs]

theorem zip_flatten_labelsFrom : ∀ (L : List (List String)) (n : ℕ),
    L.flatten.zip (labelsFrom n L)
      = (L.enumFrom n).flatMap (fun q => q.2.map (fun x => (x, q.1)))
  | [], _ => rfl
  | fs :: L, n => by
    rw [labelsFrom_cons, List.flatten_cons,
      List.zip_append (by rw [List.length_replicate]),
      zip_self_replicate, zip_flatten_labelsFrom L (n + 1)]
    simp [List.enumFrom]

theorem mem_zip_flatten_labelsFrom (L : List (List String)) (p : String × ℕ)
    (hp : p ∈ L.flatten.zip (labelsFrom 0 L)) : p.1 ∈ L.getD p.2 [] := by
  rw [zip_flatten_labelsFrom, List.mem_flatMap] at hp
  obtain ⟨q, hq, hpq⟩ := hp
  rw [List.mem_map] at hpq
  obtain ⟨x, hx, hxp⟩ := hpq
  rw [List.mk_mem_enumFrom_iff_le_and_getElem?_sub] at hq
  obtain ⟨-, hget⟩ := hq
  subst hxp
  simp only [Nat.sub_zero] at hget
  have hD : L.getD q.1 [] = q.2 := by
    rw [List.getD_eq_getElem?_getD, hget]
    rfl
  show x ∈ L.getD q.1 []
  rw [hD]
  exact hx

/-- Counterexample for C6: when the root directory exists but is empty, the
run does fail, but at line 130 (`image_files_list[0]`) with an `IndexError` —
not with a propagated I/O error as the claim states. -/
theorem buildCatalog_empty_not_io :
    buildCatalog (some []) "MedNIST" = Except.error PyError.indexError ∧
    buildCatalog (some []) "MedNIST" ≠ Except.error PyError.ioError := by
  refine ⟨rfl, ?_⟩
  intro h
  rw [show buildCatalog (some []) "MedNIST" = Except.error PyError.indexError from rfl] at h
  injection h with h2
  cases h2

/-- Claim C6 as amended: a missing root directory fails with a propagated I/O
error; an existing but empty root directory also fails, but with an
`IndexError` raised by `image_files_list[0]`, not an I/O error; on success the
class-name list is sorted in Python string order (code-point lexicographic,
`pyStrLeP`).  The builder is a pure function of the directory listing, so it
has no side effects beyond reading the filesystem. -/
theorem buildCatalog_failure_and_sorted (data_dir : Option (List FSEntry)) (dirName : String) :
    (data_dir = none → buildCatalog data_dir dirName = Except.error PyError.ioError) ∧
    (data_dir = some [] → buildCatalog data_dir dirName = Except.error PyError.indexError) ∧
    (∀ c : Catalog, buildCatalog data_dir dirName = Except.ok c →
      c.class_names.Sorted pyStrLeP) := by
  refine ⟨?_, ?_, ?_⟩
  · intro h; subst h; rfl
  · intro h; subst h; rfl
  · intro c hc
    cases data_dir with
    | none => simp [buildCatalog] at hc
    | some entries =>
      simp only [buildCatalog] at hc
      by_cases hj : (catalogImageFiles entries dirName).flatten = []
      · rw [if_pos hj] at hc; cases hc
      · rw [if_neg hj] at hc
        injection hc with h
        subst h
        exact List.sorted_insertionSort pyStrLeP _

/-- Witness for C6 (amended), on a missing directory and on a one-class
directory `A` with a single image. -/
theorem buildCatalog_failure_and_sorted_witness :
    ((none : Option (List FSEntry)) = none ∧
     buildCatalog none "MedNIST" = Except.error PyError.ioError) ∧
    (buildCatalog (some [⟨"A", true, ["a1"]⟩]) "MedNIST"
        = Except.ok ⟨["A"], [["MedNIST/A/a1"]], ["MedNIST/A/a1"], [0], 1⟩ ∧
     (["A"] : List String).Sorted pyStrLeP) := by
  refine ⟨⟨rfl, (buildCatalog_failure_and_sorted none "MedNIST").1 rfl⟩, rfl, ?_⟩
  exact (buildCatalog_failure_and_sorted (some [⟨"A", true, ["a1"]⟩]) "MedNIST").2.2
    ⟨["A"], [["MedNIST/A/a1"]], ["MedNIST/A/a1"], [0], 1⟩ rfl

/-- Claim C10: on success the catalog's two parallel lists are consistent:
they have equal length, every label is an integer below `num_class`, the file
at any position with label `c` comes from class `c`'s list in `image_files`,
and the label sequence is non-decreasing — each class's files appear
contiguously, classes in ascending order. -/
theorem catalog_parallel_consistent (data_dir : Option (List FSEntry)) (dirName : String)
    (c : Catalog) (hc : buildCatalog data_dir dirName = Except.ok c) :
    c.image_files_list.length = c.image_class.length ∧
    (∀ p ∈ c.image_files_list.zip c.image_class,
        p.2 < c.class_names.length ∧ p.1 ∈ c.image_files.getD p.2 []) ∧
    c.image_class.Sorted (· ≤ ·) := by
  cases data_dir with
  | none => simp [buildCatalog] at hc
  | some entries =>
    simp only [buildCatalog] at hc
    by_cases hj : (catalogImageFiles entries dirName).flatten = []
    · rw [if_pos hj] at hc; cases hc
    · rw [if_neg hj] at hc
      injection hc with h
      subst h
      refine ⟨(labelsFrom_length _ 0).symm, ?_, labelsFrom_sorted _ 0⟩
      intro p hp
      refine ⟨?_, mem_zip_flatten_labelsFrom _ p hp⟩
      have hmem : p.2 ∈ labelsFrom 0 (catalogImageFiles entries dirName) :=
        (List.of_mem_zip hp).2
      have hb := (labelsFrom_mem _ 0 p.2 hmem).2
      show p.2 < (catalogClassNames entries).length
      have hlen : (catalogImageFiles entries dirName).length
          = (catalogClassNames entries).length := by
        simp only [catalogImageFiles, List.length_map]
      omega

/-- Witness for C10 on a two-class directory (`b` before `a` in listing
order, plus a stray plain file): the catalog pairs each path with the right
class, labels are below 2 and non-decreasing. -/
theorem catalog_parallel_consistent_witness :
    (buildCatalog
        (some [⟨"b", true, ["i1", "i2"]⟩, ⟨"a", true, ["j1"]⟩, ⟨"stray.txt", false, []⟩])
        "MedNIST"
      = Except.ok ⟨["a", "b"], [["MedNIST/a/j1"], ["MedNIST/b/i1", "MedNIST/b/i2"]],
          ["MedNIST/a/j1", "MedNIST/b/i1", "MedNIST/b/i2"], [0, 1, 1], 3⟩) ∧
    ((["MedNIST/a/j1", "MedNIST/b/i1", "MedNIST/b/i2"] : List String).length
        = ([0, 1, 1] : List ℕ).length ∧
     (("MedNIST/b/i1", 1).2 < (["a", "b"] : List String).length ∧
       ("MedNIST/b/i1", 1).1 ∈ ([["MedNIST/a/j1"], ["MedNIST/b/i1", "MedNIST/b/i2"]]
           : List (List String)).getD ("MedNIST/b/i1", 1).2 []) ∧
     ([0, 1, 1] : List ℕ).Sorted (· ≤ ·)) := by
  refine ⟨rfl, ?_⟩
  have h := catalog_parallel_consistent
    (some [⟨"b", true, ["i1", "i2"]⟩, ⟨"a", true, ["j1"]⟩, ⟨"stray.txt", false, []⟩])
    "MedNIST"
    ⟨["a", "b"], [["MedNIST/a/j1"], ["MedNIST/b/i1", "MedNIST/b/i2"]],
      ["MedNIST/a/j1", "MedNIST/b/i1", "MedNIST/b/i2"], [0, 1, 1], 3⟩ rfl
  exact ⟨h.1, h.2.1 ("MedNIST/b/i1", 1) (by decide), h.2.2⟩

theorem foldl_min_mem : ∀ (l : List ℚ) (x : ℚ), l.foldl min x ∈ x :: l
  | [], x => List.mem_singleton_self x
  | a :: l, x => by
    have ih := foldl_min_mem l (min x a)
    rw [List.foldl_cons]
    rcases List.mem_cons.mp ih with h | h
    · rcases min_choice x a with hm | hm
      · rw [h, hm]; exact List.mem_cons_self _ _
      · rw [h, hm]; exact List.mem_cons_of_mem _ (List.mem_cons_self _ _)
    · exact List.mem_cons_of_mem _ (List.mem_cons_of_mem _ h)

theorem foldl_max_mem : ∀ (l : List ℚ) (x : ℚ), l.foldl max x ∈ x :: l
  | [], x => List.mem_singleton_self x
  | a :: l, x => by
    have ih := foldl_max_mem l (max x a)
    rw [List.foldl_cons]
    rcases List.mem_cons.mp ih with h | h
    · rcases max_choice x a with hm | hm
      · rw [h, hm]; exact List.mem_cons_self _ _
      · rw [h, hm]; exact List.mem_cons_of_mem _ (List.mem_cons_self _ _)
    · exact List.mem_cons_of_mem _ (List.mem_cons_of_mem _ h)

theorem foldl_min_le : ∀ (l : List ℚ) (x y : ℚ), y ∈ x :: l → l.foldl min x ≤ y
  | [], x, y, hy => by
    rw [List.mem_singleton.mp hy]
    exact le_refl _
  | a :: l, x, y, hy => by
    rw [List.foldl_cons]
    have hinit : l.foldl min (min x a) ≤ min x a :=
      foldl_min_le l (min x a) (min x a) (List.mem_cons_self _ _)
    rcases List.mem_cons.mp hy with h | h
    · subst h
      exact hinit.trans (min_le_left _ _)
    · rcases List.mem_cons.mp h with h2 | h2
      · subst h2
        exact hinit.trans (min_le_right _ _)
      · exact foldl_min_le l (min x a) y (List.mem_cons_of_mem _ h2)

theorem le_foldl_max : ∀ (l : List ℚ) (x y : ℚ), y ∈ x :: l → y ≤ l.foldl max x
  | [], x, y, hy => by
    rw [List.mem_singleton.mp hy]
    exact le_refl _
  | a :: l, x, y, hy => by
    rw [List.foldl_cons]
    have hinit : max x a ≤ l.foldl max (max x a) :=
      le_foldl_max l (max x a) (max x a) (List.mem_cons_self _ _)
    rcases List.mem_cons.mp hy with h | h
    · subst h
      exact (le_max_left _ _).trans hinit
    · rcases List.mem_cons.mp h with h2 | h2
      · subst h2
        exact (le_max_right _ _).trans hinit
      · exact le_foldl_max l (max x a) y (List.mem_cons_of_mem _ h2)

theorem map_mul_zero (l : List ℚ) : l.map (fun v => v * 0) = List.replicate l.length 0 := by
  induction l with
  | nil => rfl
  | cons a l ih => simp [List.replicate_succ, ih]

theorem foldl_min_replicate : ∀ (n : ℕ) (a : ℚ), (List.replicate n a).foldl min a = a
  | 0, _ => rfl
  | n + 1, a => by
    rw [List.replicate_succ, List.foldl_cons, min_self]
    exact foldl_min_replicate n a

theorem foldl_max_replicate : ∀ (n : ℕ) (a : ℚ), (List.replicate n a).foldl max a = a
  | 0, _ => rfl
  | n + 1, a => by
    rw [List.replicate_succ, List.foldl_cons, max_self]
    exact foldl_max_replicate n a

theorem rescaleArray_replicate_zero (n : ℕ) :
    rescaleArray (List.replicate (n + 1) (0 : ℚ)) = List.replicate (n + 1) 0 := by
  rw [List.replicate_succ]
  have hb : rescaleArray (0 :: List.replicate n (0 : ℚ))
      = (0 :: List.replicate n (0 : ℚ)).map (fun v => v * 0) := by
    simp only [rescaleArray, foldl_min_replicate, foldl_max_replicate]
    exact if_pos trivial
  rw [hb, ← List.replicate_succ, map_mul_zero, List.length_replicate]

/-- MONAI `rescale_array` is idempotent (exactly, over the rationals). -/
theorem rescaleArray_idem (xs : List ℚ) : rescaleArray (rescaleArray xs) = rescaleArray xs := by
  match xs with
  | [] => rfl
  | x :: rest =>
    by_cases hmm : rest.foldl min x = rest.foldl max x
    · have h1 : rescaleArray (x :: rest) = List.replicate (x :: rest).length 0 := by
        simp only [rescaleArray, if_pos hmm]
        exact map_mul_zero _
      rw [h1, List.length_cons, rescaleArray_replicate_zero, ← List.length_cons x rest, ← h1]
    · set m := rest.foldl min x with hm
      set M := rest.foldl max x with hM
      have hxm : m ≤ x := foldl_min_le rest x x (List.mem_cons_self _ _)
      have hxM : x ≤ M := le_foldl_max rest x x (List.mem_cons_self _ _)
      have hlt : m < M := lt_of_le_of_ne (hxm.trans hxM) hmm
      have hpos : (0 : ℚ) < M - m := by linarith
      have hne : M - m ≠ 0 := ne_of_gt hpos
      set f : ℚ → ℚ := fun v => (v - m) / (M - m) * (1 - 0) + 0 with hf
      have hmono : ∀ a b : ℚ, a ≤ b → f a ≤ f b := by
        intro a b hab
        rw [hf]
        have : (a - m) / (M - m) ≤ (b - m) / (M - m) :=
          (div_le_div_iff_of_pos_right hpos).mpr (sub_le_sub_right hab m)
        nlinarith [this]
      have hfm : f m = 0 := by rw [hf]; simp
      have hfM : f M = 1 := by rw [hf]; field_simp
      have honce : rescaleArray (x :: rest) = f x :: rest.map f := by
        simp only [rescaleArray, if_neg hmm, List.map_cons]
      rw [honce]
      have hmem_map : ∀ y ∈ f x :: rest.map f, ∃ z ∈ x :: rest, y = f z := by
        intro y hy
        rcases List.mem_cons.mp hy with h | h
        · exact ⟨x, List.mem_cons_self _ _, h⟩
        · obtain ⟨z, hz, hzy⟩ := List.mem_map.mp h
          exact ⟨z, List.mem_cons_of_mem _ hz, hzy.symm⟩
      have hmin' : (rest.map f).foldl min (f x) = 0 := by
        apply le_antisymm
        · have : f m ∈ f x :: rest.map f := by
            rcases List.mem_cons.mp (foldl_min_mem rest x) with h | h
            · exact h ▸ List.mem_cons_self _ _
            · exact List.mem_cons_of_mem _ (List.mem_map_of_mem f h)
          calc (rest.map f).foldl min (f x) ≤ f m := foldl_min_le _ _ _ this
            _ = 0 := hfm
        · have hmem := foldl_min_mem (rest.map f) (f x)
          obtain ⟨z, hz, hzy⟩ := hmem_map _ hmem
          rw [hzy, ← hfm]
          exact hmono m z (foldl_min_le rest x z hz)
      have hmax' : (rest.map f).foldl max (f x) = 1 := by
        apply le_antisymm
        · have hmem := foldl_max_mem (rest.map f) (f x)
          obtain ⟨z, hz, hzy⟩ := hmem_map _ hmem
          rw [hzy, ← hfM]
          exact hmono z M (le_foldl_max rest x z hz)
        · have : f M ∈ f x :: rest.map f := by
            rcases List.mem_cons.mp (foldl_max_mem rest x) with h | h
            · exact h ▸ List.mem_cons_self _ _
            · exact List.mem_cons_of_mem _ (List.mem_map_of_mem f h)
          calc (1 : ℚ) = f M := hfM.symm
            _ ≤ (rest.map f).foldl max (f x) := le_foldl_max _ _ _ this
      simp only [rescaleArray, hmin', hmax']
      rw [if_neg (by norm_num)]
      have hid : ∀ v : ℚ, (v - 0) / (1 - 0) * (1 - 0) + 0 = v := by
        intro v
        norm_num
      calc (f x :: rest.map f).map (fun v => (v - 0) / (1 - 0) * (1 - 0) + 0)
          = (f x :: rest.map f).map id := by
            apply List.map_congr_left
            intro v _
            rw [hid v, id]
        _ = f x :: rest.map f := List.map_id _

/-- Counterexample for C7: the deterministic prefix applied twice does not
reproduce its single application — `AddChannel` prepends one more dimension
each time, so the output tensors differ on the concrete image `[0, 2]`. -/
theorem detStage_not_idempotent :
    detStage (detStage { shape := [2], data := [0, 2] })
      ≠ detStage { shape := [2], data := [0, 2] } := by
  intro h
  have hshape := congrArg NTensor.shape h
  simp [detStage, ensureType, scaleIntensity, addChannel] at hshape

/-- Claim C7 as amended: applying the deterministic prefix
(`AddChannel` then `ScaleIntensity`) twice yields the same flat value
sequence as applying it once — `ScaleIntensity` is exactly idempotent over
the rationals — but not the same tensor: the second `AddChannel` prepends one
more leading singleton dimension to the shape. -/
theorem detStage_values_idempotent (t : NTensor) :
    (detStage (detStage t)).data = (detStage t).data ∧
    (detStage (detStage t)).shape = 1 :: (detStage t).shape := by
  refine ⟨?_, rfl⟩
  show rescaleArray (rescaleArray t.data) = rescaleArray t.data
  exact rescaleArray_idem t.data

/-- Claim C8: the cache directory is removed at the end of the run iff no
explicit directory was configured in the environment variable; when one was
configured, cleanup leaves the filesystem exactly unchanged, and when none
was, only the temporary root directory is removed — every other entry
survives with its contents untouched. -/
theorem cleanup_removes_iff_temporary (directory : Option String) (tmpdir : String)
    (fs : List (String × ℕ)) :
    (directory = none →
      (∀ v : ℕ, (rootDirOf directory tmpdir, v) ∉ cleanupRun directory tmpdir fs) ∧
      ∀ e ∈ fs, e.1 ≠ rootDirOf directory tmpdir → e ∈ cleanupRun directory tmpdir fs) ∧
    (∀ d : String, directory = some d → cleanupRun directory tmpdir fs = fs) := by
  constructor
  · intro h
    subst h
    constructor
    · intro v hv
      have hp := List.of_mem_filter hv
      simp [rootDirOf] at hp
    · intro e he hne
      apply List.mem_filter.mpr
      refine ⟨he, ?_⟩
      simpa [rootDirOf] using hne
  · intro d h
    subst h
    rfl

/-- Witness for C8: with no configured directory the temporary directory
`"tmpdir"` is removed and `"data"` survives; with `"cache"` configured the
filesystem is untouched. -/
theorem cleanup_removes_iff_temporary_witness :
    ((none : Option String) = none ∧
     (rootDirOf none "tmpdir", 7)
        ∉ cleanupRun none "tmpdir" [("tmpdir", 7), ("data", 3)] ∧
     ("data", 3) ∈ cleanupRun none "tmpdir" [("tmpdir", 7), ("data", 3)]) ∧
    ((some "cache" : Option String) = some "cache" ∧
     cleanupRun (some "cache") "tmpdir" [("cache", 7)] = [("cache", 7)]) := by
  refine ⟨⟨rfl, ?_, ?_⟩, rfl, ?_⟩
  · exact ((cleanup_removes_iff_temporary none "tmpdir" [("tmpdir", 7), ("data", 3)]).1 rfl).1 7
  · exact ((cleanup_removes_iff_temporary none "tmpdir" [("tmpdir", 7), ("data", 3)]).1 rfl).2
      ("data", 3) (by decide) (by decide)
  · exact (cleanup_removes_iff_temporary (some "cache") "tmpdir" [("cache", 7)]).2 "cache" rfl

/-- Claim C3: determinism of the split partitioner — any two runs with the
same total count `N` and the same seed produce identical train, validation
and test index sets.  In the embedding the pipeline is a pure function of
`(N, seed)`, which is exactly the content of the contract: no input other
than the count and the seed influences the partition. -/
theorem partition_deterministic (N1 N2 seed1 seed2 : ℕ)
    (hN : N1 = N2) (hs : seed1 = seed2) :
    partitionPipeline N1 seed1 = partitionPipeline N2 seed2 := by
  rw [hN, hs]

/-- Witness for C3 at `N = 12`, seed `0`. -/
theorem partition_deterministic_witness :
    (12 = 12 ∧ 0 = 0) ∧ partitionPipeline 12 0 = partitionPipeline 12 0 :=
  ⟨⟨rfl, rfl⟩, partition_deterministic 12 12 0 0 rfl rfl⟩
